import Mathlib

/-!
Shallow embedding of `src/lib/statistics/utils.py`: the SVD-based rank
estimator, the `fullrank` column-span basis, the `StepFunction` /
`ECDF` machinery and the monotone-function inverter, together with
theorems settling the specification claims about them.

Numeric values are modelled as exact rationals.  Breakpoints and query
points of a `StepFunction` live in an extended type with `-infinity`
(prepended by the constructor) and `+infinity` (a legal query point).
-/

/-- Extended rationals: finite values plus a bottom element (`-N.inf`,
prepended at utils.py:99) and a top element (so that `+infinity` is a
legal query point). -/
abbrev XVal := WithBot (WithTop ℚ)

/-- Embed a finite rational into `XVal`. -/
def XVal.of (q : ℚ) : XVal := ((q : WithTop ℚ) : XVal)

/-- Model of `scipy.searchsorted(a, v)` with its default `side='left'`
(utils.py:110): on a sorted array it returns the leftmost insertion index
of `v`, which is the number of entries strictly below `v`. -/
def searchsorted (a : List XVal) (v : XVal) : ℕ :=
  a.countP (fun w => decide (w < v))

/-- Indexing `arr[i]` for a possibly negative integer index, resolved the
way numpy and Python resolve it: a negative index counts from the end of
the array, and an index out of range after that adjustment is an error. -/
def pyGet (l : List ℚ) (i : ℤ) : Option ℚ :=
  if i < 0 then
    (if (l.length : ℤ) + i < 0 then none else l.get? ((l.length : ℤ) + i).toNat)
  else l.get? i.toNat

/-- The index comparison used to model `N.argsort` (utils.py:103 and
utils.py:62): indices ordered by the value they point at, with ties broken
by original position, i.e. a stable argsort. -/
def idxLe {α : Type} [LinearOrder α] (d : α) (l : List α) (i j : ℕ) : Prop :=
  l.getD i d < l.getD j d ∨ (l.getD i d = l.getD j d ∧ i ≤ j)

instance {α : Type} [LinearOrder α] (d : α) (l : List α) :
    DecidableRel (idxLe d l) := fun _ _ =>
  inferInstanceAs (Decidable (_ ∨ _))

instance {α : Type} [LinearOrder α] (d : α) (l : List α) :
    IsTotal ℕ (idxLe d l) := by
  constructor
  intro i j
  rcases lt_trichotomy (l.getD i d) (l.getD j d) with h | h | h
  · exact Or.inl (Or.inl h)
  · rcases Nat.le_total i j with hij | hij
    · exact Or.inl (Or.inr ⟨h, hij⟩)
    · exact Or.inr (Or.inr ⟨h.symm, hij⟩)
  · exact Or.inr (Or.inl h)

instance {α : Type} [LinearOrder α] (d : α) (l : List α) :
    IsTrans ℕ (idxLe d l) := by
  constructor
  intro i j k hij hjk
  rcases hij with h1 | ⟨e1, le1⟩
  · rcases hjk with h2 | ⟨e2, _⟩
    · exact Or.inl (h1.trans h2)
    · exact Or.inl (e2 ▸ h1)
  · rcases hjk with h2 | ⟨e2, le2⟩
    · exact Or.inl (e1 ▸ h2)
    · exact Or.inr ⟨e1.trans e2, le1.trans le2⟩

instance {α : Type} [LinearOrder α] (d : α) (l : List α) :
    IsAntisymm ℕ (idxLe d l) := by
  constructor
  intro i j hij hji
  rcases hij with h1 | ⟨e1, le1⟩
  · rcases hji with h2 | ⟨e2, _⟩
    · exact absurd (h1.trans h2) (lt_irrefl _)
    · exact absurd (e2 ▸ h1) (lt_irrefl _)
  · rcases hji with h2 | ⟨_, le2⟩
    · exact absurd h2 (not_lt_of_ge (le_of_eq e1))
    · exact Nat.le_antisymm le1 le2

/-- Model of `N.argsort l`: the permutation of `0, ..., length-1` that sorts
`l` ascending, ties keeping their original order. -/
def argsort {α : Type} [LinearOrder α] (d : α) (l : List α) : List ℕ :=
  (List.range l.length).insertionSort (idxLe d l)

/-- The state a `StepFunction` holds after construction (utils.py:99-106):
the breakpoint array `x` with `-infinity` prepended, the value array `y`
with `ival` prepended, both co-sorted, and the stored length `n`. -/
structure StepFunction where
  x : List XVal
  y : List ℚ
  n : ℕ
deriving DecidableEq

/-- Core of `StepFunction.__init__` (utils.py:99-106), after the shape
checks: prepend `(-inf, ival)`, and unless `sorted` is set, apply the
argsort permutation of `x` to both arrays. -/
def StepFunction.make (x : List ℚ) (y : List ℚ) (ival : ℚ) (sorted : Bool) :
    StepFunction :=
  let sx : List XVal := ⊥ :: x.map XVal.of
  let sy : List ℚ := ival :: y
  if sorted then ⟨sx, sy, sx.length⟩
  else
    let asort := argsort ⊥ sx
    ⟨asort.map (fun i => sx.getD i ⊥), asort.map (fun i => sy.getD i 0),
      sx.length⟩

/-- `StepFunction.__call__` (utils.py:108-112):
`tind = searchsorted(self.x, time) - 1; return self.y[tind]`, where the
subtraction is over the integers and the final indexing follows numpy's
negative-index semantics. -/
def StepFunction.call (f : StepFunction) (time : XVal) : Option ℚ :=
  let tind : ℤ := (searchsorted f.x time : ℤ) - 1
  pyGet f.y tind

/-- The two `ValueError`s `StepFunction.__init__` can raise
(utils.py:94-97), under the spec's error taxonomy names. -/
inductive SFError where
  | shapeMismatch
  | dimensionError
deriving DecidableEq

/-- The literal message of each error as raised at utils.py:95 and 97. -/
def SFError.message : SFError → String
  | .shapeMismatch => "in StepFunction: x and y do not have the same shape"
  | .dimensionError => "in StepFunction: x and y must be 1-dimensional"

/-- A numpy array as far as the constructor checks care: a shape together
with the flattened data. -/
structure NDArr where
  shape : List ℕ
  data : List ℚ
deriving DecidableEq

/-- `StepFunction.__init__` (utils.py:89-106) including its two shape
checks: shape equality is tested first, then one-dimensionality, and only
then is the object built. -/
def StepFunction.init (x y : NDArr) (ival : ℚ) (sorted : Bool) :
    Except SFError StepFunction :=
  if x.shape ≠ y.shape then .error .shapeMismatch
  else if x.shape.length ≠ 1 then .error .dimensionError
  else .ok (StepFunction.make x.data y.data ival sorted)

/-- `ECDF` (utils.py:115-124): copy and sort the sample ascending, take
`y[i] = (i+1)/n`, and build a `StepFunction` through the unsorted
constructor path (its argsort is a no-op here).  The constructor's shape
checks pass, so the model goes straight to `StepFunction.make`. -/
def ECDF (values : List ℚ) : StepFunction :=
  let x := values.insertionSort (· ≤ ·)
  let n := x.length
  let y := (List.range n).map (fun i => ((i : ℚ) + 1) / (n : ℚ))
  StepFunction.make x y 0 false

/-- An IEEE float as far as `rank`'s arithmetic needs: a finite value, a
NaN, or a signed infinity.  `D / D[0]` at utils.py:47 is evaluated with
these semantics when `D[0] = 0`. -/
inductive FVal where
  | num (q : ℚ)
  | nan
  | inf
  | ninf
deriving DecidableEq

/-- IEEE division of finite values: exact when the divisor is nonzero,
`0/0 = NaN`, and `a/0 = ±infinity` for nonzero `a`. -/
def fdiv (a b : ℚ) : FVal :=
  if b = 0 then (if a = 0 then .nan else if 0 < a then .inf else .ninf)
  else .num (a / b)

/-- IEEE comparison `v > c` for an extended value `v` and finite `c`:
false whenever `v` is NaN. -/
def fgt (v : FVal) (c : ℚ) : Bool :=
  match v with
  | .num q => decide (c < q)
  | .nan => false
  | .inf => true
  | .ninf => false

/-- `rank` (utils.py:40-47) downstream of the external SVD: given the
singular values `D` as the decomposition returned them, count the entries
with `D[i] / D[0] > cond`.  The divisor is literally `D[0]` — the code
performs no reordering of `D` — and the division carries IEEE semantics
so that a zero leading singular value yields NaN ratios, none of which
pass the strict comparison. -/
def rank (D : List ℚ) (cond : ℚ) : ℕ :=
  (D.map (fun d => fdiv d (D.headD 0))).countP (fun v => fgt v cond)

/-- The count described by the spec's words (spec §4.1): the number of
singular values whose ratio to the LARGEST singular value strictly
exceeds `cond`, with the zero-matrix case guarded to 0 explicitly.
Stated for comparison with `rank`, which is the source's computation. -/
def rankSpec (D : List ℚ) (cond : ℚ) : ℕ :=
  let mx := D.foldr max 0
  if mx = 0 then 0 else D.countP (fun d => decide (cond < d / mx))

deriving instance DecidableEq for Except

/-- Column extraction `V[:, j]` (utils.py:66): errors when `j` is out of
range for some row. -/
def numpyCol (V : List (List ℚ)) (j : ℕ) : Option (List ℚ) :=
  V.mapM (fun row => row.get? j)

/-- `N.transpose` of a rectangular list-of-rows (utils.py:67). -/
def transposeL (rows : List (List ℚ)) : List (List ℚ) :=
  match rows with
  | [] => []
  | r0 :: _ => (List.range r0.length).map (fun i => rows.map (fun r => r.getD i 0))

/-- `fullrank` (utils.py:49-67) downstream of the external SVD: given the
left singular vectors `V` (as a list of rows) and the singular values `D`,
compute `order = argsort(D)[::-1]`, collect the columns `V[:, order[i]]`
for `i` in `range(r)` and transpose the collection.  The `Option`-failure
models the IndexError numpy raises when `order[i]` (or the column access)
is out of bounds — the code performs no validation of `r`. -/
def fullrank_post (V : List (List ℚ)) (D : List ℚ) (r : ℕ) :
    Except String (List (List ℚ)) :=
  match (List.range r).mapM (fun i =>
      ((argsort 0 D).reverse).get? i >>= fun j => numpyCol V j) with
  | none => .error "index out of range"
  | some value => .ok (transposeL value)

/-- The rectangular diagonal factor of a singular value decomposition:
an `m × n` matrix with the singular values `D` on the diagonal. -/
def svdDiag (m n : ℕ) (D : List ℚ) : Matrix (Fin m) (Fin n) ℚ :=
  Matrix.of fun i j => if (i : ℕ) = (j : ℕ) then D.getD (i : ℕ) 0 else 0

/-- A matrix rendered as the list of its rows, the layout `fullrank_post`
consumes. -/
def matToList {m n : ℕ} (V : Matrix (Fin m) (Fin n) ℚ) : List (List ℚ) :=
  List.ofFn (fun i : Fin m => List.ofFn (fun j : Fin n => V i j))

/-- A list of rows read back as a matrix (entries out of range read 0). -/
def listToMat (M : List (List ℚ)) (m n : ℕ) : Matrix (Fin m) (Fin n) ℚ :=
  Matrix.of fun i j => (M.getD (i : ℕ) []).getD (j : ℕ) 0

/-- The column space of a matrix: the range of the linear map it induces
by matrix-vector multiplication. -/
def colSpace {m n : ℕ} (A : Matrix (Fin m) (Fin n) ℚ) : Submodule ℚ (Fin m → ℚ) :=
  LinearMap.range A.mulVecLin

/-- Ordering of interpolation nodes by their independent coordinate. -/
def fstLe (p q : ℚ × ℚ) : Prop := p.1 ≤ q.1

instance : DecidableRel fstLe := fun p q =>
  inferInstanceAs (Decidable (p.1 ≤ q.1))

instance : IsTotal (ℚ × ℚ) fstLe := ⟨fun p q => le_total p.1 q.1⟩

instance : IsTrans (ℚ × ℚ) fstLe := ⟨fun _ _ _ => le_trans⟩

/-- Modelled from the spec: `LinearInterpolant`, called at utils.py:140,
is not defined under src/.  Per spec §4.5 it is a piecewise-linear
interpolant over paired samples, holding the node list sorted by the
independent coordinate. -/
structure LinearInterpolant where
  pts : List (ℚ × ℚ)
deriving DecidableEq

/-- Modelled from the spec: the `LinearInterpolant(u, v, sorted)`
constructor pairs the two sample arrays and, when `sorted` is false,
sorts the pairs ascending by the independent coordinate `u`. -/
def LinearInterpolant.make (u v : List ℚ) (sorted : Bool) :
    LinearInterpolant :=
  let pts := u.zip v
  if sorted then ⟨pts⟩ else ⟨pts.insertionSort fstLe⟩

/-- Modelled from the spec: piecewise-linear evaluation over a node list
sorted by first coordinate.  Queries at or below the first node clamp to
its value, queries beyond the last clamp to the last value, and a query
inside a segment is interpolated linearly. -/
def interpSeg : List (ℚ × ℚ) → ℚ → ℚ
  | [], _ => 0
  | [(_, v1)], _ => v1
  | (u1, v1) :: (u2, v2) :: rest, t =>
    if t ≤ u1 then v1
    else if t ≤ u2 then v1 + (t - u1) * (v2 - v1) / (u2 - u1)
    else interpSeg ((u2, v2) :: rest) t

/-- Modelled from the spec: interpolant evaluation. -/
def LinearInterpolant.eval (f : LinearInterpolant) (t : ℚ) : ℚ :=
  interpSeg f.pts t

/-- The y-construction of `monotone_fn_inverter` (utils.py:133-139) for
`vectorized=False`: `y = []`, then append `fn(_x)` for each `_x` in `x`,
in order. -/
def appendLoop (fn : ℚ → ℚ) : List ℚ → List ℚ → List ℚ
  | [], acc => acc
  | a :: as, acc => appendLoop fn as (acc ++ [fn a])

/-- `monotone_fn_inverter` (utils.py:126-140): obtain `y` either by one
vectorized (elementwise) application of `fn` or by the element-at-a-time
loop, then build the interpolant over the swapped pairs `(y, x)` with
`sorted=False`. -/
def monotone_fn_inverter (fn : ℚ → ℚ) (x : List ℚ) (vectorized : Bool) :
    LinearInterpolant :=
  let y := if vectorized then x.map fn else appendLoop fn x []
  LinearInterpolant.make y x false

/-! ### Helper lemmas about sorted lists, counting and indexing -/

lemma head_le_of_pairwise {α : Type} [LinearOrder α] (d : α) {l : List α}
    (hp : l.Pairwise (· ≤ ·)) : ∀ b ∈ l, l.getD 0 d ≤ b := by
  cases l with
  | nil => intro b hb; simp at hb
  | cons c l' =>
    intro b hb
    rcases List.mem_cons.1 hb with rfl | hb'
    · simp
    · exact (List.pairwise_cons.1 hp).1 b hb'

lemma countP_lt_of_sorted {α : Type} [LinearOrder α] (d : α) (l : List α) :
    ∀ (t : α), l.Pairwise (· ≤ ·) →
    ∀ (k : ℕ), k + 1 < l.length → l.getD k d < t → t ≤ l.getD (k + 1) d →
    l.countP (fun w => decide (w < t)) = k + 1 := by
  induction l with
  | nil => intro t _ k hk _ _; simp at hk
  | cons a l ih =>
    intro t hp k hk h1 h2
    rcases List.pairwise_cons.1 hp with ⟨ha, hp'⟩
    cases k with
    | zero =>
      simp only [List.getD_cons_zero] at h1
      simp only [List.getD_cons_succ] at h2
      rw [List.countP_cons]
      have hl : l.countP (fun w => decide (w < t)) = 0 := by
        apply List.countP_eq_zero.2
        intro b hb
        have hb2 : t ≤ b := le_trans h2 (head_le_of_pairwise d hp' b hb)
        simp [not_lt_of_ge hb2]
      simp [hl, h1]
    | succ k =>
      simp only [List.getD_cons_succ] at h1 h2
      have hk' : k + 1 < l.length := by
        simpa [Nat.succ_lt_succ_iff] using hk
      have hmem : l.getD k d ∈ l := by
        have hklen : k < l.length := Nat.lt_of_succ_lt hk'
        rw [List.getD_eq_getElem l d hklen]
        exact List.getElem_mem hklen
      have hat : a < t := lt_of_le_of_lt (ha _ hmem) h1
      rw [List.countP_cons]
      rw [ih t hp' k hk' h1 h2]
      simp [hat]

lemma countP_lt_bot (a : List XVal) : a.countP (fun w => decide (w < (⊥ : XVal))) = 0 := by
  apply List.countP_eq_zero.2
  intro b _
  simp

lemma pyGet_neg_one (l : List ℚ) : pyGet l (-1) = l.getLast? := by
  cases l with
  | nil => rfl
  | cons a l' =>
    have h1 : ¬ ((a :: l').length : ℤ) + -1 < 0 := by
      simp only [List.length_cons]
      omega
    have h2 : (((a :: l').length : ℤ) + -1).toNat = l'.length := by
      simp only [List.length_cons]
      omega
    unfold pyGet
    rw [if_pos (by norm_num : (-1 : ℤ) < 0), if_neg h1, h2,
      List.get?_eq_getElem?, List.getLast?_eq_getElem?]
    simp

lemma pyGet_ofNat (l : List ℚ) (n : ℕ) : pyGet l (n : ℤ) = l.get? n := by
  unfold pyGet
  rw [if_neg (by omega : ¬ (n : ℤ) < 0)]
  simp

/-- The shapes `StepFunction.make` produces with the `sorted` flag set. -/
lemma make_true_x (x y : List ℚ) (ival : ℚ) :
    (StepFunction.make x y ival true).x = ⊥ :: x.map XVal.of := rfl

/-- The value array `StepFunction.make` produces with the `sorted` flag set. -/
lemma make_true_y (x y : List ℚ) (ival : ℚ) :
    (StepFunction.make x y ival true).y = ival :: y := rfl

/-- The breakpoint array of the unsorted construction path. -/
lemma make_false_x (x y : List ℚ) (ival : ℚ) :
    (StepFunction.make x y ival false).x =
      (argsort ⊥ (⊥ :: x.map XVal.of)).map
        (fun i => (⊥ :: x.map XVal.of).getD i ⊥) := rfl

/-- The value array of the unsorted construction path. -/
lemma make_false_y (x y : List ℚ) (ival : ℚ) :
    (StepFunction.make x y ival false).y =
      (argsort ⊥ (⊥ :: x.map XVal.of)).map
        (fun i => (ival :: y).getD i 0) := rfl

lemma argsort_length {α : Type} [LinearOrder α] (d : α) (l : List α) :
    (argsort d l).length = l.length := by
  unfold argsort
  rw [List.length_insertionSort, List.length_range]

lemma make_len_eq (x y : List ℚ) (ival : ℚ) (b : Bool)
    (hlen : x.length = y.length) :
    (StepFunction.make x y ival b).x.length =
      (StepFunction.make x y ival b).y.length := by
  cases b with
  | true => simp [make_true_x, make_true_y, hlen]
  | false => simp [make_false_x, make_false_y]

lemma make_y_nonempty (x y : List ℚ) (ival : ℚ) (b : Bool) :
    (StepFunction.make x y ival b).y ≠ [] := by
  cases b with
  | true => simp [make_true_y]
  | false =>
    have hl : (StepFunction.make x y ival false).y.length =
        x.length + 1 := by
      simp [make_false_y, argsort_length]
    intro hnil
    rw [hnil] at hl
    simp at hl

/-! ### C10: evaluation at -infinity wraps to the last value, and the
index arithmetic never goes out of bounds -/

/-- C10: evaluating a constructed `StepFunction` at the query point
`-infinity` (equal to the synthetic first breakpoint) computes a lookup
index of `searchsorted - 1 = -1`, which wraps around under numpy's
negative-index semantics to select the last stored value, so the call
returns the final `y` value rather than `ival`; and for every query
point, finite or infinite, the index stays within bounds, so evaluation
never fails. -/
theorem stepfunction_call_neginf_wraps (x y : List ℚ) (ival : ℚ) (b : Bool)
    (hlen : x.length = y.length) :
    (StepFunction.make x y ival b).call ⊥ =
      (StepFunction.make x y ival b).y.getLast? ∧
    (StepFunction.make x y ival b).y ≠ [] ∧
    ∀ t : XVal, ((StepFunction.make x y ival b).call t).isSome := by
  set f := StepFunction.make x y ival b with hf
  have hxy : f.x.length = f.y.length := make_len_eq x y ival b hlen
  have hy0 : f.y ≠ [] := make_y_nonempty x y ival b
  refine ⟨?_, hy0, ?_⟩
  · show pyGet f.y ((searchsorted f.x ⊥ : ℤ) - 1) = f.y.getLast?
    unfold searchsorted
    rw [countP_lt_bot]
    norm_num
    exact pyGet_neg_one f.y
  · intro t
    show (pyGet f.y ((searchsorted f.x t : ℤ) - 1)).isSome
    have hle : searchsorted f.x t ≤ f.y.length := by
      rw [← hxy]
      exact List.countP_le_length _
    cases hc : searchsorted f.x t with
    | zero =>
      have : ((0 : ℕ) : ℤ) - 1 = -1 := by norm_num
      rw [this, pyGet_neg_one]
      exact List.getLast?_isSome.2 hy0
    | succ c =>
      have hlt : c < f.y.length := by
        rw [hc] at hle
        omega
      have : ((c + 1 : ℕ) : ℤ) - 1 = (c : ℤ) := by push_cast; ring
      rw [this, pyGet_ofNat, List.get?_eq_getElem?]
      simp [hlt]

/-- C10 witness: the theorem applied to a concrete construction. -/
theorem stepfunction_call_neginf_wraps_witness :
    ([(0 : ℚ), 1].length = [(10 : ℚ), 20].length) ∧
    ((StepFunction.make [0, 1] [10, 20] 0 true).call ⊥ =
      (StepFunction.make [0, 1] [10, 20] 0 true).y.getLast? ∧
    (StepFunction.make [0, 1] [10, 20] 0 true).y ≠ [] ∧
    ∀ t : XVal, ((StepFunction.make [0, 1] [10, 20] 0 true).call t).isSome) :=
  ⟨by decide, stepfunction_call_neginf_wraps [0, 1] [10, 20] 0 true (by decide)⟩

/-! ### C1: continuity convention of StepFunction evaluation -/

lemma getD_map_of (x : List ℚ) (k : ℕ) (hk : k < x.length) :
    (x.map XVal.of).getD k ⊥ = XVal.of (x.getD k 0) := by
  rw [List.getD_eq_getElem _ _ (by simpa using hk), List.getD_eq_getElem x 0 hk]
  simp

lemma XVal.of_mono {a b : ℚ} (h : a ≤ b) : XVal.of a ≤ XVal.of b :=
  WithBot.coe_le_coe.2 (WithTop.coe_le_coe.2 h)

/-- C1 counterexample: for the StepFunction built from the co-sorted
breakpoints `x = [0, 1]` and values `y = [10, 20]`, the query `t = 0`
satisfies `x[0] <= t < x[1]`, yet the call returns `0` (the `ival`),
not `y[0] = 10`: the lookup uses a leftmost, not rightmost, insertion
position, so a query exactly at a breakpoint falls in the preceding
step. -/
theorem stepfunction_right_continuity_cx :
    (StepFunction.make [0, 1] [10, 20] 0 true).call (XVal.of 0) = some 0 ∧
    ((10 : ℚ) ≠ 0) := by
  constructor
  · decide
  · norm_num

/-- C1 (amended): StepFunction evaluation is left-continuous: for
co-sorted breakpoints `x` and values `y` of equal length and a query `t`
with `x[k] < t <= x[k+1]`, the call returns `y[k]`, because the lookup
index is the leftmost insertion position of `t` minus 1 (a query exactly
at a breakpoint returns the value in force before that breakpoint). -/
theorem stepfunction_left_continuous (x y : List ℚ) (ival : ℚ) (t : XVal)
    (hx : x.Pairwise (· ≤ ·)) (hlen : x.length = y.length)
    (k : ℕ) (hk : k + 1 < x.length)
    (h1 : XVal.of (x.getD k 0) < t) (h2 : t ≤ XVal.of (x.getD (k + 1) 0)) :
    (StepFunction.make x y ival true).call t = some (y.getD k 0) := by
  have hm : (x.map XVal.of).Pairwise (· ≤ ·) :=
    hx.map XVal.of (fun a b h => XVal.of_mono h)
  have hmlen : k + 1 < (x.map XVal.of).length := by simpa using hk
  have hg1 : (x.map XVal.of).getD k ⊥ < t := by
    rw [getD_map_of x k (Nat.lt_of_succ_lt hk)]
    exact h1
  have hg2 : t ≤ (x.map XVal.of).getD (k + 1) ⊥ := by
    rw [getD_map_of x (k + 1) hk]
    exact h2
  have hcount : (x.map XVal.of).countP (fun w => decide (w < t)) = k + 1 :=
    countP_lt_of_sorted ⊥ (x.map XVal.of) t hm k hmlen hg1 hg2
  have hbot : (⊥ : XVal) < t := lt_trans (WithBot.bot_lt_coe _) h1
  have hky : k < y.length := by omega
  show pyGet (StepFunction.make x y ival true).y
      ((searchsorted (StepFunction.make x y ival true).x t : ℤ) - 1) = _
  rw [make_true_x, make_true_y]
  unfold searchsorted
  rw [List.countP_cons, hcount, if_pos (by simpa using hbot)]
  have hcast : ((k + 1 + 1 : ℕ) : ℤ) - 1 = ((k + 1 : ℕ) : ℤ) := by
    push_cast
    ring
  rw [hcast, pyGet_ofNat, List.get?_cons_succ, List.get?_eq_getElem?,
    List.getElem?_eq_getElem hky, List.getD_eq_getElem y 0 hky]

/-- C1 witness: the amended theorem applied to a concrete input. -/
theorem stepfunction_left_continuous_witness :
    ([(0 : ℚ), 1].Pairwise (· ≤ ·) ∧
      [(0 : ℚ), 1].length = [(10 : ℚ), 20].length ∧
      0 + 1 < [(0 : ℚ), 1].length ∧
      XVal.of ([(0 : ℚ), 1].getD 0 0) < XVal.of 1 ∧
      XVal.of 1 ≤ XVal.of ([(0 : ℚ), 1].getD 1 0)) ∧
    (StepFunction.make [0, 1] [10, 20] 0 true).call (XVal.of 1) =
      some ([(10 : ℚ), 20].getD 0 0) :=
  ⟨⟨by decide, by decide, by decide, by decide, by decide⟩,
    stepfunction_left_continuous [0, 1] [10, 20] 0 (XVal.of 1)
      (by decide) (by decide) 0 (by decide) (by decide) (by decide)⟩

/-! ### C2: the concrete ECDF evaluation -/

section
attribute [local semireducible] Rat.mul Rat.inv Rat.add Rat.sub Rat.ofScientific

/-- C2: for the ECDF built from `values = [5, 1, 3, 2, 4]`, the code
gives `f(0) = 0` and `f(100) = 1` as the claim states, but at the sample
point `t = 3` it returns `2/5 = 0.4`, not the claimed `0.6`: the
leftmost-insertion lookup excludes the sample equal to the query point,
contradicting the ECDF definition (fraction of points `≤ t`). -/
theorem ecdf_at_sample_point_bug :
    (ECDF [5, 1, 3, 2, 4]).call (XVal.of 3) = some (2/5) ∧
    (ECDF [5, 1, 3, 2, 4]).call (XVal.of 0) = some 0 ∧
    (ECDF [5, 1, 3, 2, 4]).call (XVal.of 100) = some 1 ∧
    ((2/5 : ℚ) ≠ 3/5) := by
  refine ⟨by decide, by decide, by decide, by norm_num⟩

end

/-! ### C6: the constructor's shape checks -/

/-- C6: `StepFunction.init` fails with the ShapeMismatch error (message
"in StepFunction: x and y do not have the same shape") exactly when the
two shapes differ, fails with the DimensionError (message
"in StepFunction: x and y must be 1-dimensional") exactly when the shapes
agree but are not one-dimensional, and succeeds otherwise; no object is
produced in the error cases. -/
theorem stepfunction_init_error_cases (x y : NDArr) (ival : ℚ) (b : Bool) :
    (StepFunction.init x y ival b = .error .shapeMismatch ↔
      x.shape ≠ y.shape) ∧
    (StepFunction.init x y ival b = .error .dimensionError ↔
      (x.shape = y.shape ∧ x.shape.length ≠ 1)) ∧
    ((∃ f, StepFunction.init x y ival b = .ok f) ↔
      (x.shape = y.shape ∧ x.shape.length = 1)) ∧
    SFError.message .shapeMismatch =
      "in StepFunction: " ++ "x and y do not have the same shape" ∧
    SFError.message .dimensionError =
      "in StepFunction: " ++ "x and y must be 1-dimensional" := by
  by_cases h1 : x.shape = y.shape
  · by_cases h2 : x.shape.length = 1
    · have hinit : StepFunction.init x y ival b =
          .ok (StepFunction.make x.data y.data ival b) := by
        unfold StepFunction.init
        rw [if_neg (by simpa using h1), if_neg (by simpa using h2)]
      have h2' : y.shape.length = 1 := h1 ▸ h2
      refine ⟨?_, ?_, ?_, rfl, rfl⟩ <;> simp [hinit, h1, h2, h2']
    · have hinit : StepFunction.init x y ival b = .error .dimensionError := by
        unfold StepFunction.init
        rw [if_neg (by simpa using h1), if_pos h2]
      have h2' : ¬ y.shape.length = 1 := h1 ▸ h2
      refine ⟨?_, ?_, ?_, rfl, rfl⟩ <;> simp [hinit, h1, h2, h2']
  · have hinit : StepFunction.init x y ival b = .error .shapeMismatch := by
      unfold StepFunction.init
      rw [if_pos h1]
    refine ⟨?_, ?_, ?_, rfl, rfl⟩ <;> simp [hinit, h1]

/-! ### C8: presorted and unsorted construction agree on sorted input -/

lemma argsort_of_sorted {α : Type} [LinearOrder α] (d : α) {l : List α}
    (h : l.Pairwise (· ≤ ·)) : argsort d l = List.range l.length := by
  unfold argsort
  apply List.Sorted.insertionSort_eq
  apply List.pairwise_iff_getElem.2
  intro i j hi hj hij
  have hi' : i < l.length := by simpa using hi
  have hj' : j < l.length := by simpa using hj
  simp only [List.getElem_range]
  have hle : l.getD i d ≤ l.getD j d := by
    rw [List.getD_eq_getElem l d hi', List.getD_eq_getElem l d hj']
    exact List.pairwise_iff_getElem.1 h i j hi' hj' hij
  rcases lt_or_eq_of_le hle with hlt | heq
  · exact Or.inl hlt
  · exact Or.inr ⟨heq, le_of_lt hij⟩

lemma map_getD_range {α : Type} (d : α) (l : List α) :
    (List.range l.length).map (fun i => l.getD i d) = l := by
  induction l with
  | nil => rfl
  | cons a l' ih =>
    have hcomp : ((List.range l'.length).map Nat.succ).map
        (fun i => (a :: l').getD i d) =
        (List.range l'.length).map (fun i => l'.getD i d) := by
      rw [List.map_map]
      apply List.map_congr_left
      intro i _
      simp [Function.comp]
    rw [List.length_cons, List.range_succ_eq_map, List.map_cons, hcomp, ih]
    simp

lemma make_false_x_sorted (x y : List ℚ) (ival : ℚ)
    (hx : x.Pairwise (· ≤ ·)) :
    (StepFunction.make x y ival false).x =
      (StepFunction.make x y ival true).x := by
  have hsx : (⊥ :: x.map XVal.of).Pairwise (· ≤ ·) := by
    rw [List.pairwise_cons]
    exact ⟨fun b _ => bot_le, hx.map XVal.of (fun a b h => XVal.of_mono h)⟩
  rw [make_false_x, make_true_x, argsort_of_sorted ⊥ hsx, map_getD_range]

lemma make_false_y_sorted (x y : List ℚ) (ival : ℚ)
    (hx : x.Pairwise (· ≤ ·)) (hlen : x.length = y.length) :
    (StepFunction.make x y ival false).y =
      (StepFunction.make x y ival true).y := by
  have hsx : (⊥ :: x.map XVal.of).Pairwise (· ≤ ·) := by
    rw [List.pairwise_cons]
    exact ⟨fun b _ => bot_le, hx.map XVal.of (fun a b h => XVal.of_mono h)⟩
  rw [make_false_y, make_true_y, argsort_of_sorted ⊥ hsx]
  have hcast : (⊥ :: x.map XVal.of).length = (ival :: y).length := by
    simp [hlen]
  rw [hcast, map_getD_range]

/-- C8: on already-ascending-sorted input of matching lengths, the
StepFunction constructed through the unsorted path (which argsorts the
breakpoints and co-sorts the values) evaluates identically, at every
query point, to the one constructed with the `sorted` flag set: the sort
permutation is the identity on sorted input. -/
theorem stepfunction_presorted_equiv (x y : List ℚ) (ival : ℚ)
    (hx : x.Pairwise (· ≤ ·)) (hlen : x.length = y.length) :
    ∀ t : XVal, (StepFunction.make x y ival false).call t =
      (StepFunction.make x y ival true).call t := by
  intro t
  unfold StepFunction.call
  rw [make_false_x_sorted x y ival hx, make_false_y_sorted x y ival hx hlen]

/-- C8 witness: the equivalence applied to a concrete sorted input and
query point. -/
theorem stepfunction_presorted_equiv_witness :
    ([(1 : ℚ), 2].Pairwise (· ≤ ·) ∧
      [(1 : ℚ), 2].length = [(3 : ℚ), 4].length) ∧
    (StepFunction.make [1, 2] [3, 4] 0 false).call (XVal.of 2) =
      (StepFunction.make [1, 2] [3, 4] 0 true).call (XVal.of 2) :=
  ⟨⟨by decide, by decide⟩,
    stepfunction_presorted_equiv [1, 2] [3, 4] 0 (by decide) (by decide)
      (XVal.of 2)⟩

/-! ### C3 and C4: the rank count -/

lemma foldr_max_le (l : List ℚ) (c : ℚ) (hc : 0 ≤ c) (h : ∀ d ∈ l, d ≤ c) :
    l.foldr max 0 ≤ c := by
  induction l with
  | nil => simpa using hc
  | cons a l' ih =>
    simp only [List.foldr_cons]
    exact max_le (h a (List.mem_cons_self a l'))
      (ih (fun d hd => h d (List.mem_cons.2 (Or.inr hd))))

lemma foldr_max_eq_head (D : List ℚ) (h0 : D ≠ [])
    (hmax : ∀ d ∈ D, d ≤ D.headD 0) (hnn : 0 ≤ D.headD 0) :
    D.foldr max 0 = D.headD 0 := by
  cases D with
  | nil => simp at h0
  | cons a l =>
    simp only [List.headD_cons] at hmax hnn ⊢
    simp only [List.foldr_cons]
    exact max_eq_left (foldr_max_le l a hnn
      (fun d hd => hmax d (List.mem_cons.2 (Or.inr hd))))

section
attribute [local semireducible] Rat.mul Rat.inv Rat.add Rat.sub Rat.ofScientific

/-- C3 counterexample: for the singular value sequence `D = [1, 2]` (the
external decomposition not having returned the maximum first) and
tolerance `3/5`, the code counts ratios to `D[0] = 1` and returns 2,
whereas the number of singular values whose ratio to the largest one
strictly exceeds the tolerance is 1: the implementation performs no
normalization of the ordering. -/
theorem rank_normalization_cx :
    rank [1, 2] (3/5) = 2 ∧ rankSpec [1, 2] (3/5) = 1 ∧
    rank [1, 2] (3/5) ≠ rankSpec [1, 2] (3/5) :=
  ⟨by decide, by decide, by decide⟩

end

/-- C3 (amended): `rank` returns the number of singular values whose
ratio to the FIRST entry `D[0]` strictly exceeds `cond`; the code
performs no explicit reordering, so this equals the count relative to
the largest singular value exactly when the decomposition primitive
returns the singular values with their maximum first (as a descending
LAPACK-style SVD does). -/
theorem rank_eq_spec_count_of_head_max (D : List ℚ) (cond : ℚ)
    (h0 : D ≠ []) (hnn : ∀ d ∈ D, 0 ≤ d)
    (hmax : ∀ d ∈ D, d ≤ D.headD 0) :
    rank D cond = rankSpec D cond := by
  cases D with
  | nil => simp at h0
  | cons a l =>
    have hh : 0 ≤ (a :: l).headD 0 := by
      simpa using hnn a (List.mem_cons_self a l)
    have hfold : (a :: l).foldr max 0 = (a :: l).headD 0 :=
      foldr_max_eq_head (a :: l) h0 hmax hh
    unfold rank rankSpec
    rw [List.countP_map, hfold]
    simp only [List.headD_cons] at hmax ⊢
    by_cases hz : a = 0
    · rw [if_pos hz]
      apply List.countP_eq_zero.2
      intro d hd
      have hd0 : d = 0 := le_antisymm (hz ▸ hmax d hd) (hnn d hd)
      simp [Function.comp, fdiv, hz, hd0, fgt]
    · rw [if_neg hz]
      apply List.countP_congr
      intro d _
      simp [Function.comp, fdiv, fgt, hz]

/-- C3 witness: the amended theorem applied to a descending concrete
singular value sequence. -/
theorem rank_eq_spec_count_witness :
    (([(2 : ℚ), 1] ≠ []) ∧ (∀ d ∈ [(2 : ℚ), 1], 0 ≤ d) ∧
      (∀ d ∈ [(2 : ℚ), 1], d ≤ [(2 : ℚ), 1].headD 0)) ∧
    rank [2, 1] (1/1000000) = rankSpec [2, 1] (1/1000000) :=
  ⟨⟨by decide, by decide, by decide⟩,
    rank_eq_spec_count_of_head_max [2, 1] (1/1000000)
      (by decide) (by decide) (by decide)⟩

/-- C4: for an all-zero singular value sequence (the SVD of an all-zero
matrix), `rank` returns 0 and raises nothing: each ratio `0 / 0`
evaluates to NaN under the IEEE semantics of the array division, and
`NaN > cond` is false, so no entry is counted. -/
theorem rank_zero_matrix (D : List ℚ) (cond : ℚ) (hz : ∀ d ∈ D, d = 0) :
    rank D cond = 0 := by
  cases D with
  | nil => rfl
  | cons a l =>
    have h0 : a = 0 := hz a (List.mem_cons_self a l)
    unfold rank
    rw [List.countP_map]
    apply List.countP_eq_zero.2
    intro d hd
    simp only [List.headD_cons]
    simp [Function.comp, fdiv, h0, hz d hd, fgt]

/-- C4 witness: the theorem applied to a concrete zero matrix's singular
values, at the code's default tolerance. -/
theorem rank_zero_matrix_witness :
    (∀ d ∈ [(0 : ℚ), 0, 0], d = 0) ∧ rank [0, 0, 0] (1/1000000) = 0 :=
  ⟨by decide, rank_zero_matrix [0, 0, 0] (1/1000000) (by decide)⟩

/-! ### C9: the monotone inverter round-trip -/

lemma appendLoop_eq (fn : ℚ → ℚ) :
    ∀ (l acc : List ℚ), appendLoop fn l acc = acc ++ l.map fn := by
  intro l
  induction l with
  | nil => intro acc; simp [appendLoop]
  | cons a l' ih =>
    intro acc
    rw [appendLoop, ih]
    simp

lemma zip_map_self (fn : ℚ → ℚ) (x : List ℚ) :
    (x.map fn).zip x = x.map (fun a => (fn a, a)) := by
  induction x with
  | nil => rfl
  | cons a l ih => simp [ih]

lemma monotone_fn_inverter_pts (fn : ℚ → ℚ) (x : List ℚ)
    (vectorized : Bool) :
    (monotone_fn_inverter fn x vectorized).pts =
      ((x.map fn).zip x).insertionSort fstLe := by
  unfold monotone_fn_inverter LinearInterpolant.make
  cases vectorized with
  | true => simp
  | false =>
    rw [appendLoop_eq]
    simp

lemma interpSeg_node (pts : List (ℚ × ℚ)) (t v : ℚ)
    (hs : pts.Pairwise fstLe) (hmem : (t, v) ∈ pts)
    (huniq : ∀ p ∈ pts, p.1 = t → p.2 = v) :
    interpSeg pts t = v := by
  induction pts with
  | nil => simp at hmem
  | cons p1 rest ih =>
    obtain ⟨u1, v1⟩ := p1
    have h1a : ∀ q ∈ rest, u1 ≤ q.1 := (List.pairwise_cons.1 hs).1
    have hs' : rest.Pairwise fstLe := (List.pairwise_cons.1 hs).2
    cases rest with
    | nil =>
      have hp : (t, v) = (u1, v1) := List.mem_singleton.1 hmem
      have hv : v = v1 := congrArg Prod.snd hp
      simp [interpSeg, hv]
    | cons p2 rest2 =>
      obtain ⟨u2, v2⟩ := p2
      by_cases hle1 : t ≤ u1
      · have ht1 : u1 = t := by
          rcases List.mem_cons.1 hmem with hp | hp
          · exact (congrArg Prod.fst hp).symm
          · exact le_antisymm (h1a (t, v) hp) hle1
        have hv1 : v1 = v := huniq (u1, v1) (List.mem_cons_self _ _) ht1
        rw [interpSeg, if_pos hle1, hv1]
      · have hmem' : (t, v) ∈ (u2, v2) :: rest2 := by
          rcases List.mem_cons.1 hmem with hp | hp
          · exact absurd (le_of_eq (congrArg Prod.fst hp)) hle1
          · exact hp
        by_cases hle2 : t ≤ u2
        · have h2a : ∀ q ∈ rest2, u2 ≤ q.1 := (List.pairwise_cons.1 hs').1
          have ht2 : t = u2 := by
            rcases List.mem_cons.1 hmem' with hp | hp
            · exact congrArg Prod.fst hp
            · exact le_antisymm hle2 (h2a (t, v) hp)
          have hv2 : v2 = v :=
            huniq (u2, v2) (List.mem_cons.2 (Or.inr (List.mem_cons_self _ _)))
              ht2.symm
          have hu12 : u1 < u2 := ht2 ▸ lt_of_not_ge (fun h => hle1 h)
          have hne : u2 - u1 ≠ 0 := sub_ne_zero.2 (ne_of_gt hu12)
          rw [interpSeg, if_neg hle1, if_pos hle2, ht2,
            mul_div_cancel_left₀ _ hne, ← hv2]
          ring
        · rw [interpSeg, if_neg hle1, if_neg hle2]
          exact ih hs' hmem'
            (fun p hp => huniq p (List.mem_cons.2 (Or.inr hp)))

/-- C9: for a strictly increasing `fn` over the sample points `x`, the
interpolant `monotone_fn_inverter(fn, x)` maps `fn(x_i)` back to `x_i`
exactly for every sample index (the nodes are the swapped pairs
`(fn(x_i), x_i)`); and with `vectorized = false`, `fn` is applied once
per element of `x` with the results collected in input order (the append
loop equals the elementwise map). -/
theorem monotone_fn_inverter_round_trip (fn : ℚ → ℚ) (x : List ℚ)
    (vectorized : Bool)
    (hmono : ∀ a ∈ x, ∀ b ∈ x, a < b → fn a < fn b) :
    (appendLoop fn x [] = x.map fn) ∧
    ∀ i, i < x.length →
      (monotone_fn_inverter fn x vectorized).eval (fn (x.getD i 0)) =
        x.getD i 0 := by
  refine ⟨by simp [appendLoop_eq], ?_⟩
  intro i hi
  have hvx : x.getD i 0 ∈ x := by
    rw [List.getD_eq_getElem x 0 hi]
    exact List.getElem_mem hi
  set v0 := x.getD i 0 with hv0
  set pts := ((x.map fn).zip x).insertionSort fstLe with hpts
  have heval : (monotone_fn_inverter fn x vectorized).eval (fn v0) =
      interpSeg pts (fn v0) := by
    unfold LinearInterpolant.eval
    rw [monotone_fn_inverter_pts]
  rw [heval]
  apply interpSeg_node
  · exact List.sorted_insertionSort fstLe _
  · rw [List.mem_insertionSort, zip_map_self]
    exact List.mem_map.2 ⟨v0, hvx, rfl⟩
  · intro p hp hp1
    rw [List.mem_insertionSort, zip_map_self] at hp
    rcases List.mem_map.1 hp with ⟨a, ha, hpa⟩
    have hfa : fn a = fn v0 := by rw [← hp1, ← hpa]
    have hav : a = v0 := by
      rcases lt_trichotomy a v0 with hlt | heq | hgt
      · exact absurd (hfa ▸ hmono a ha v0 hvx hlt) (lt_irrefl _)
      · exact heq
      · exact absurd (hfa ▸ hmono v0 hvx a ha hgt) (lt_irrefl _)
    rw [← hpa, hav]

/-- C9 witness: the round trip for the identity function on the samples
`[1, 2, 3]`, evaluated at the middle node. -/
theorem monotone_fn_inverter_round_trip_witness :
    (∀ a ∈ [(1 : ℚ), 2, 3], ∀ b ∈ [(1 : ℚ), 2, 3], a < b →
        (fun q => q) a < (fun q => q) b) ∧
    appendLoop (fun q => q) [(1 : ℚ), 2, 3] [] =
      [(1 : ℚ), 2, 3].map (fun q => q) ∧
    (monotone_fn_inverter (fun q => q) [(1 : ℚ), 2, 3] false).eval
        ((fun q => q) ([(1 : ℚ), 2, 3].getD 1 0)) = [(1 : ℚ), 2, 3].getD 1 0 :=
  ⟨fun a _ b _ h => h,
    (monotone_fn_inverter_round_trip (fun q => q) [1, 2, 3] false
      (fun a _ b _ h => h)).1,
    (monotone_fn_inverter_round_trip (fun q => q) [1, 2, 3] false
      (fun a _ b _ h => h)).2 1 (by decide)⟩

/-! ### C5: fullrank — list-level structure of the selection -/

lemma getD_strictAnti (D : List ℚ) (r : ℕ)
    (hstrict : ∀ i ∈ List.range r, i + 1 < r → D.getD (i + 1) 0 < D.getD i 0) :
    ∀ i j, i < j → j < r → D.getD j 0 < D.getD i 0 := by
  intro i j hij hjr
  induction j with
  | zero => omega
  | succ j ih =>
    have hj1 : j + 1 < r := hjr
    have hstep : D.getD (j + 1) 0 < D.getD j 0 :=
      hstrict j (List.mem_range.2 (by omega)) hj1
    rcases Nat.lt_succ_iff_lt_or_eq.1 hij with h | h
    · exact lt_trans hstep (ih h (by omega))
    · rw [h]
      exact hstep

/-- Under strictly descending positive singular values followed by
zeros, the stable argsort of `D` is explicitly the zero-indices ascending
followed by the positive indices in reverse. -/
lemma argsort_structured (D : List ℚ) (r : ℕ) (hr : r ≤ D.length)
    (hpos : ∀ i ∈ List.range r, 0 < D.getD i 0)
    (hstrict : ∀ i ∈ List.range r, i + 1 < r → D.getD (i + 1) 0 < D.getD i 0)
    (hzero : ∀ i ∈ List.range D.length, r ≤ i → D.getD i 0 = 0) :
    argsort 0 D = (List.range (D.length - r)).map (r + ·) ++
      (List.range r).reverse := by
  have hperm : List.Perm (argsort 0 D)
      ((List.range (D.length - r)).map (r + ·) ++ (List.range r).reverse) := by
    have h1 : List.Perm (argsort 0 D) (List.range D.length) :=
      List.perm_insertionSort (idxLe 0 D) (List.range D.length)
    have h2 : List.range D.length =
        List.range r ++ (List.range (D.length - r)).map (r + ·) := by
      rw [← List.range_add, Nat.add_sub_cancel' hr]
    have h3 : List.Perm
        ((List.range (D.length - r)).map (r + ·) ++ (List.range r).reverse)
        (List.range D.length) := by
      rw [h2]
      refine (List.perm_append_comm).trans ?_
      exact ((List.reverse_perm (List.range r)).append (List.Perm.refl _))
    exact h1.trans h3.symm
  have hs1 : (argsort 0 D).Pairwise (idxLe 0 D) :=
    List.sorted_insertionSort (idxLe 0 D) (List.range D.length)
  have hs2 : ((List.range (D.length - r)).map (r + ·) ++
      (List.range r).reverse).Pairwise (idxLe 0 D) := by
    rw [List.pairwise_append]
    refine ⟨?_, ?_, ?_⟩
    · apply List.pairwise_iff_getElem.2
      intro i j hi hj hij
      have hi' : i < D.length - r := by simpa using hi
      have hj' : j < D.length - r := by simpa using hj
      simp only [List.getElem_map, List.getElem_range]
      refine Or.inr ⟨?_, by omega⟩
      rw [hzero (r + i) (List.mem_range.2 (by omega)) (by omega),
        hzero (r + j) (List.mem_range.2 (by omega)) (by omega)]
    · rw [List.pairwise_reverse]
      apply List.pairwise_iff_getElem.2
      intro i j hi hj hij
      have hi' : i < r := by simpa using hi
      have hj' : j < r := by simpa using hj
      simp only [List.getElem_range]
      exact Or.inl (getD_strictAnti D r hstrict i j hij hj')
    · intro a ha b hb
      rcases List.mem_map.1 ha with ⟨i, hi, rfl⟩
      have hi' : i < D.length - r := List.mem_range.1 hi
      have hb' : b < r := by
        have := List.mem_reverse.1 hb
        exact List.mem_range.1 this
      refine Or.inl ?_
      rw [hzero (r + i) (List.mem_range.2 (by omega)) (by omega)]
      exact hpos b (List.mem_range.2 hb')
  exact List.eq_of_perm_of_sorted hperm hs1 hs2

/-- The reversed argsort starts with `0, 1, ..., r-1`: the selection in
`fullrank_post` takes exactly the columns of the `r` dominant singular
values, in descending order of singular value. -/
lemma order_get_structured (D : List ℚ) (r : ℕ) (hr : r ≤ D.length)
    (hpos : ∀ i ∈ List.range r, 0 < D.getD i 0)
    (hstrict : ∀ i ∈ List.range r, i + 1 < r → D.getD (i + 1) 0 < D.getD i 0)
    (hzero : ∀ i ∈ List.range D.length, r ≤ i → D.getD i 0 = 0) :
    ∀ i, i < r → ((argsort 0 D).reverse).get? i = some i := by
  intro i hi
  rw [argsort_structured D r hr hpos hstrict hzero, List.reverse_append,
    List.reverse_reverse]
  rw [List.get?_eq_getElem?,
    List.getElem?_append_left (by simpa using hi : i < (List.range r).length)]
  simp [List.getElem?_range hi]

lemma mapM_eq_some {α β : Type} (f : α → Option β) (g : α → β) :
    ∀ (l : List α), (∀ a ∈ l, f a = some (g a)) → l.mapM f = some (l.map g) := by
  intro l
  induction l with
  | nil => intro _; rfl
  | cons a l' ih =>
    intro h
    rw [List.mapM_cons, h a (List.mem_cons_self a l'),
      ih (fun b hb => h b (List.mem_cons.2 (Or.inr hb)))]
    rfl

lemma numpyCol_matToList {m n : ℕ} (V : Matrix (Fin m) (Fin n) ℚ) (j : ℕ)
    (hj : j < n) :
    numpyCol (matToList V) j =
      some (List.ofFn (fun i : Fin m => V i ⟨j, hj⟩)) := by
  have hcol : ∀ i : Fin m,
      (List.ofFn fun k : Fin n => V i k).getD j 0 = V i ⟨j, hj⟩ := by
    intro i
    have hjl : j < (List.ofFn fun k : Fin n => V i k).length := by simpa using hj
    rw [List.getD_eq_getElem _ 0 hjl, List.getElem_ofFn]
  unfold numpyCol matToList
  rw [mapM_eq_some _ (fun row => row.getD j 0) _ ?req]
  case req =>
    intro row hrow
    rcases (List.mem_ofFn _ _).1 hrow with ⟨i, rfl⟩
    show (List.ofFn fun k : Fin n => V i k).get? j =
      some ((List.ofFn fun k : Fin n => V i k).getD j 0)
    have hjl : j < (List.ofFn fun k : Fin n => V i k).length := by
      simpa using hj
    rw [List.get?_eq_getElem?, List.getElem?_eq_getElem hjl,
      List.getD_eq_getElem _ 0 hjl]
  rw [List.map_ofFn]
  exact congrArg some (congrArg (@List.ofFn ℚ m)
    (funext fun i => by
      simp only [Function.comp_apply]
      exact hcol i))

lemma matToList_length {m n : ℕ} (V : Matrix (Fin m) (Fin n) ℚ) :
    (matToList V).length = m := by
  simp [matToList]

lemma matToList_getD {m n : ℕ} (V : Matrix (Fin m) (Fin n) ℚ) (i j : ℕ)
    (hi : i < m) (hj : j < n) :
    ((matToList V).getD i []).getD j 0 = V ⟨i, hi⟩ ⟨j, hj⟩ := by
  unfold matToList
  have hil : i < (List.ofFn (fun i : Fin m =>
      List.ofFn (fun j : Fin n => V i j))).length := by simpa using hi
  rw [List.getD_eq_getElem _ _ hil, List.getElem_ofFn]
  have hjl : j < (List.ofFn (fun k : Fin n => V ⟨i, hi⟩ k)).length := by
    simpa using hj
  rw [List.getD_eq_getElem _ _ hjl, List.getElem_ofFn]

lemma numpyCol_matToList_col {m n : ℕ} (V : Matrix (Fin m) (Fin n) ℚ)
    (j : ℕ) (hj : j < n) :
    numpyCol (matToList V) j =
      some ((matToList V).map (fun row => row.getD j 0)) := by
  unfold numpyCol
  apply mapM_eq_some
  intro row hrow
  unfold matToList at hrow
  rcases (List.mem_ofFn _ _).1 hrow with ⟨i, rfl⟩
  show (List.ofFn fun k : Fin n => V i k).get? j =
    some ((List.ofFn fun k : Fin n => V i k).getD j 0)
  have hjl : j < (List.ofFn fun k : Fin n => V i k).length := by simpa using hj
  rw [List.get?_eq_getElem?, List.getElem?_eq_getElem hjl,
    List.getD_eq_getElem _ 0 hjl]

lemma transposeL_cons (c : List ℚ) (rest : List (List ℚ)) :
    transposeL (c :: rest) =
      (List.range c.length).map
        (fun i => (c :: rest).map (fun row => row.getD i 0)) := rfl

lemma transposeL_map_range (r : ℕ) (hr0 : 0 < r) (colL : ℕ → List ℚ) (m : ℕ)
    (hlen : (colL 0).length = m) :
    transposeL ((List.range r).map colL) =
      (List.range m).map (fun i =>
        ((List.range r).map colL).map (fun c => c.getD i 0)) := by
  obtain ⟨r', rfl⟩ : ∃ r', r = r' + 1 := ⟨r - 1, by omega⟩
  have hsplit : (List.range (r' + 1)).map colL =
      colL 0 :: ((List.range r').map Nat.succ).map colL := by
    rw [List.range_succ_eq_map, List.map_cons]
  rw [hsplit, transposeL_cons, hlen, ← hsplit]

lemma argsort_mem_lt {α : Type} [LinearOrder α] (d : α) (l : List α) :
    ∀ j ∈ argsort d l, j < l.length := by
  intro j hj
  unfold argsort at hj
  have hmem : j ∈ List.range l.length :=
    (List.perm_insertionSort (idxLe d l) (List.range l.length)).mem_iff.1 hj
  exact List.mem_range.1 hmem

lemma order_getD_lt {α : Type} [LinearOrder α] (d : α) (l : List α) (j : ℕ)
    (hj : j < l.length) : ((argsort d l).reverse).getD j 0 < l.length := by
  have hlen : j < ((argsort d l).reverse).length := by
    rw [List.length_reverse, argsort_length]
    exact hj
  have hmem : ((argsort d l).reverse).getD j 0 ∈ (argsort d l).reverse := by
    rw [List.getD_eq_getElem _ _ hlen]
    exact List.getElem_mem hlen
  rw [List.mem_reverse] at hmem
  exact argsort_mem_lt d l _ hmem

/-- The selection and transposition of `fullrank_post` on the rows of a
square `V`: for any positive `r` within the length of `D`, the result is
the `m × r` matrix whose `j`-th column is the column of `V` at index
`order[j]`, where `order = argsort(D)[::-1]` is the explicitly computed
descending ordering of the singular values. -/
lemma fullrank_post_ok {m : ℕ} (V : Matrix (Fin m) (Fin m) ℚ)
    (D : List ℚ) (r : ℕ) (hr0 : 0 < r) (hr : r ≤ D.length)
    (hDm : D.length ≤ m) :
    fullrank_post (matToList V) D r =
      .ok ((List.range m).map (fun i =>
        ((List.range r).map (fun j =>
          (matToList V).map (fun row =>
            row.getD (((argsort 0 D).reverse).getD j 0) 0))).map
            (fun c => c.getD i 0))) := by
  have hsel : ∀ i ∈ List.range r,
      ((argsort 0 D).reverse.get? i >>= fun j => numpyCol (matToList V) j) =
        some ((matToList V).map (fun row =>
          row.getD (((argsort 0 D).reverse).getD i 0) 0)) := by
    intro i hi
    have hir : i < r := List.mem_range.1 hi
    have hilen : i < ((argsort 0 D).reverse).length := by
      rw [List.length_reverse, argsort_length]
      omega
    rw [List.get?_eq_getElem?, List.getElem?_eq_getElem hilen,
      ← List.getD_eq_getElem _ 0 hilen]
    show numpyCol (matToList V) (((argsort 0 D).reverse).getD i 0) = _
    exact numpyCol_matToList_col V _
      (lt_of_lt_of_le (order_getD_lt 0 D i (by omega)) hDm)
  have hmapM : (List.range r).mapM
      (fun i => (argsort 0 D).reverse.get? i >>= fun j =>
        numpyCol (matToList V) j) =
      some ((List.range r).map (fun i =>
        (matToList V).map (fun row =>
          row.getD (((argsort 0 D).reverse).getD i 0) 0))) :=
    mapM_eq_some _ _ _ hsel
  unfold fullrank_post
  rw [hmapM]
  show Except.ok (transposeL ((List.range r).map (fun i =>
      (matToList V).map (fun row =>
        row.getD (((argsort 0 D).reverse).getD i 0) 0)))) = _
  rw [transposeL_map_range r hr0 _ m (by simp [matToList_length])]

lemma fullrank_result_entry {m : ℕ} (V : Matrix (Fin m) (Fin m) ℚ)
    (D : List ℚ) (r : ℕ) (i j : ℕ) (hi : i < m) (hj : j < r)
    (hb : ((argsort 0 D).reverse).getD j 0 < m) :
    ((((List.range m).map (fun i =>
        ((List.range r).map (fun j =>
          (matToList V).map (fun row =>
            row.getD (((argsort 0 D).reverse).getD j 0) 0))).map
            (fun c => c.getD i 0))).getD i []).getD j 0) =
      V ⟨i, hi⟩ ⟨((argsort 0 D).reverse).getD j 0, hb⟩ := by
  have hil : i < ((List.range m).map (fun i =>
      ((List.range r).map (fun j =>
        (matToList V).map (fun row =>
          row.getD (((argsort 0 D).reverse).getD j 0) 0))).map
          (fun c => c.getD i 0))).length := by simpa using hi
  rw [List.getD_eq_getElem _ _ hil]
  simp only [List.getElem_map, List.getElem_range]
  have hjl : j < (((List.range r).map (fun j =>
      (matToList V).map (fun row =>
        row.getD (((argsort 0 D).reverse).getD j 0) 0))).map
        (fun c => c.getD i 0)).length := by simpa using hj
  rw [List.getD_eq_getElem _ _ hjl]
  simp only [List.getElem_map, List.getElem_range]
  have hml : i < ((matToList V).map (fun row =>
      row.getD (((argsort 0 D).reverse).getD j 0) 0)).length := by
    simpa [matToList_length] using hi
  rw [List.getD_eq_getElem _ _ hml]
  simp only [List.getElem_map]
  have hx : i < (matToList V).length := by simpa [matToList_length] using hi
  rw [← List.getD_eq_getElem (matToList V) [] hx]
  exact matToList_getD V i _ hi hb

lemma colSpace_factor {m n : ℕ} (X A : Matrix (Fin m) (Fin n) ℚ)
    (U Uinv : Matrix (Fin n) (Fin n) ℚ)
    (hfact : X = A * U.transpose) (hU2 : Uinv * U = 1) :
    colSpace X = colSpace A := by
  unfold colSpace
  rw [hfact, Matrix.mulVecLin_mul]
  apply LinearMap.range_comp_of_range_eq_top
  apply LinearMap.range_eq_top_of_surjective
  intro v
  refine ⟨(Uinv.transpose).mulVec v, ?_⟩
  rw [Matrix.mulVecLin_apply, Matrix.mulVec_mulVec, ← Matrix.transpose_mul,
    hU2, Matrix.transpose_one, Matrix.one_mulVec]

lemma col_mul_svdDiag_lt {m n r : ℕ} (V : Matrix (Fin m) (Fin m) ℚ)
    (D : List ℚ) (hrm : r ≤ m) (j : Fin n) (hjr : (j : ℕ) < r) :
    (V * svdDiag m n D).transpose j =
      D.getD (j : ℕ) 0 • (fun i => V i ⟨(j : ℕ), lt_of_lt_of_le hjr hrm⟩) := by
  funext i
  simp only [Matrix.transpose_apply, Matrix.mul_apply, svdDiag,
    Matrix.of_apply, Pi.smul_apply, smul_eq_mul]
  rw [Finset.sum_eq_single (⟨(j : ℕ), lt_of_lt_of_le hjr hrm⟩ : Fin m)]
  · simp [mul_comm]
  · intro k _ hk
    have hkj : (k : ℕ) ≠ (j : ℕ) := by
      intro he
      apply hk
      apply Fin.ext
      simpa using he
    simp [hkj]
  · intro habs
    exact absurd (Finset.mem_univ _) habs

lemma col_mul_svdDiag_ge {m n r : ℕ} (V : Matrix (Fin m) (Fin m) ℚ)
    (D : List ℚ) (j : Fin n) (hjr : r ≤ (j : ℕ))
    (hzero : ∀ i, r ≤ i → D.getD i 0 = 0) :
    (V * svdDiag m n D).transpose j = 0 := by
  funext i
  simp only [Matrix.transpose_apply, Matrix.mul_apply, svdDiag,
    Matrix.of_apply, Pi.zero_apply]
  apply Finset.sum_eq_zero
  intro k _
  by_cases hkj : (k : ℕ) = (j : ℕ)
  · rw [if_pos hkj, hzero (k : ℕ) (by omega), mul_zero]
  · rw [if_neg hkj, mul_zero]

lemma colSpace_svd_sel {m n r : ℕ} (V : Matrix (Fin m) (Fin m) ℚ)
    (D : List ℚ) (hrm : r ≤ m) (hrn : r ≤ n)
    (hpos : ∀ i ∈ List.range r, 0 < D.getD i 0)
    (hzero : ∀ i, r ≤ i → D.getD i 0 = 0) :
    colSpace (V * svdDiag m n D) =
      colSpace (Matrix.of fun (i : Fin m) (j : Fin r) =>
        V i ⟨(j : ℕ), lt_of_lt_of_le j.2 hrm⟩) := by
  unfold colSpace
  rw [Matrix.range_mulVecLin, Matrix.range_mulVecLin]
  apply le_antisymm
  · rw [Submodule.span_le]
    intro v hv
    rcases hv with ⟨j, rfl⟩
    by_cases hjr : (j : ℕ) < r
    · rw [col_mul_svdDiag_lt V D hrm j hjr]
      apply Submodule.smul_mem
      apply Submodule.subset_span
      exact ⟨⟨(j : ℕ), hjr⟩, rfl⟩
    · rw [col_mul_svdDiag_ge V D j (le_of_not_lt hjr) hzero]
      exact Submodule.zero_mem _
  · rw [Submodule.span_le]
    intro v hv
    rcases hv with ⟨j, rfl⟩
    have hDj : D.getD (j : ℕ) 0 ≠ 0 :=
      ne_of_gt (hpos (j : ℕ) (List.mem_range.2 j.2))
    have hcol := col_mul_svdDiag_lt V D hrm
      (⟨(j : ℕ), lt_of_lt_of_le j.2 hrn⟩ : Fin n) j.2
    have hexp : (Matrix.of fun (i : Fin m) (j : Fin r) =>
        V i ⟨(j : ℕ), lt_of_lt_of_le j.2 hrm⟩).transpose j =
        (D.getD (j : ℕ) 0)⁻¹ •
          ((V * svdDiag m n D).transpose
            ⟨(j : ℕ), lt_of_lt_of_le j.2 hrn⟩) := by
      rw [hcol]
      simp only [Fin.val_mk]
      rw [smul_smul, inv_mul_cancel₀ hDj, one_smul]
      rfl
    rw [hexp]
    apply Submodule.smul_mem
    exact Submodule.subset_span ⟨_, rfl⟩

/-- C5 counterexample: the 1×1 matrix `X = [[1]]` has the exact singular
value decomposition `V = [[1]]`, `D = [1]`, `U = [[1]]` (so that
`X = V diag(D) Uᵀ`), yet supplying `r = 2` makes `fullrank` fail with an
index error when it reads `order[2-1]` — it does not return a matrix
with one row and two columns, and performs no validation or clamping of
`r`. -/
theorem fullrank_no_validation_cx :
    listToMat [[1]] 1 1 =
      (1 : Matrix (Fin 1) (Fin 1) ℚ) * svdDiag 1 1 [1] *
        (1 : Matrix (Fin 1) (Fin 1) ℚ).transpose ∧
    matToList (1 : Matrix (Fin 1) (Fin 1) ℚ) = [[1]] ∧
    fullrank_post [[1]] [1] 2 = .error "index out of range" := by
  refine ⟨?_, by decide, by decide⟩
  rw [Matrix.transpose_one, Matrix.mul_one, Matrix.one_mul]
  funext i j
  have hi : i = 0 := Subsingleton.elim i 0
  have hj : j = 0 := Subsingleton.elim j 0
  subst hi
  subst hj
  rfl

/-- C5 (amended): for a matrix `X` with the exact SVD factorization
`X = V diag(D) Uᵀ` (`U` invertible, `D` of length `min(m, n)`) and every
positive `r` not exceeding the number of singular values: `fullrank`
succeeds and returns a matrix with the same number of rows as `X` and
exactly `r` columns, whose `j`-th column is the column of `V` selected
by the explicitly computed descending ordering
`order = argsort(D)[::-1]` — entry `(i, j)` is `V[i][order[j]]`, with
`order[j]` always in range; and when `r` equals the number of nonzero
singular values and those are strictly descending, the column space of
the result equals the column space of `X`.  When `r` exceeds the number
of singular values the column selection instead fails with an index
error (no validation or clamping of `r` is performed), as the
counterexample records. -/
theorem fullrank_amended {m n : ℕ}
    (X : Matrix (Fin m) (Fin n) ℚ) (V : Matrix (Fin m) (Fin m) ℚ)
    (D : List ℚ) (U Uinv : Matrix (Fin n) (Fin n) ℚ) (r : ℕ)
    (hfact : X = V * svdDiag m n D * U.transpose)
    (hU2 : Uinv * U = 1)
    (hlen : D.length = min m n)
    (hr0 : 0 < r) (hr : r ≤ D.length) :
    ∃ M, fullrank_post (matToList V) D r = .ok M ∧
      M.length = m ∧
      (∀ row ∈ M, row.length = r) ∧
      (∀ j, j < r → ((argsort 0 D).reverse).getD j 0 < m) ∧
      (∀ i j : ℕ, ∀ hi : i < m, ∀ _hj : j < r,
        ∀ hb : ((argsort 0 D).reverse).getD j 0 < m,
        (M.getD i []).getD j 0 =
          V ⟨i, hi⟩ ⟨((argsort 0 D).reverse).getD j 0, hb⟩) ∧
      ((∀ i ∈ List.range r, 0 < D.getD i 0) →
        (∀ i ∈ List.range r, i + 1 < r →
          D.getD (i + 1) 0 < D.getD i 0) →
        (∀ i ∈ List.range D.length, r ≤ i → D.getD i 0 = 0) →
        colSpace (listToMat M m r) = colSpace X) := by
  have hDm : D.length ≤ m := hlen ▸ min_le_left m n
  have hDn : D.length ≤ n := hlen ▸ min_le_right m n
  have hrm : r ≤ m := hr.trans hDm
  have hrn : r ≤ n := hr.trans hDn
  refine ⟨_, fullrank_post_ok V D r hr0 hr hDm, ?_, ?_, ?_, ?_, ?_⟩
  · simp
  · intro row hrow
    rcases List.mem_map.1 hrow with ⟨i, _, rfl⟩
    simp
  · intro j hj
    exact lt_of_lt_of_le (order_getD_lt 0 D j (by omega)) hDm
  · intro i j hi hj hb
    exact fullrank_result_entry V D r i j hi hj hb
  · intro hpos hstrict hzero
    have hzero2 : ∀ i, r ≤ i → D.getD i 0 = 0 := by
      intro i hi
      by_cases hil : i < D.length
      · exact hzero i (List.mem_range.2 hil) hi
      · exact List.getD_eq_default _ _ (by omega)
    have horder : ∀ j, j < r → ((argsort 0 D).reverse).getD j 0 = j := by
      intro j hj
      have h := order_get_structured D r hr hpos hstrict hzero j hj
      have hjlen : j < ((argsort 0 D).reverse).length := by
        rw [List.length_reverse, argsort_length]
        omega
      rw [List.get?_eq_getElem?, List.getElem?_eq_getElem hjlen] at h
      rw [List.getD_eq_getElem _ 0 hjlen]
      exact Option.some.inj h
    have hmat : listToMat ((List.range m).map (fun i =>
        ((List.range r).map (fun j =>
          (matToList V).map (fun row =>
            row.getD (((argsort 0 D).reverse).getD j 0) 0))).map
            (fun c => c.getD i 0))) m r =
        Matrix.of fun (i : Fin m) (j : Fin r) =>
          V i ⟨(j : ℕ), lt_of_lt_of_le j.2 hrm⟩ := by
      funext i j
      have hb : ((argsort 0 D).reverse).getD (j : ℕ) 0 < m :=
        lt_of_lt_of_le (order_getD_lt 0 D (j : ℕ) (by omega)) hDm
      simp only [listToMat, Matrix.of_apply]
      rw [fullrank_result_entry V D r (i : ℕ) (j : ℕ) i.2 j.2 hb]
      have h2 : (⟨((argsort 0 D).reverse).getD (j : ℕ) 0, hb⟩ : Fin m) =
          ⟨(j : ℕ), lt_of_lt_of_le j.2 hrm⟩ := by
        apply Fin.ext
        simpa using horder (j : ℕ) j.2
      rw [h2]
    rw [hmat, ← colSpace_svd_sel V D hrm hrn hpos hzero2]
    exact (colSpace_factor X (V * svdDiag m n D) U Uinv hfact hU2).symm

/-- C5 witness: the amended theorem applied to the 1×1 matrix `[[2]]`
with its exact SVD `V = U = [[1]]`, `D = [2]`, at `r = 1`. -/
theorem fullrank_amended_witness :
    (svdDiag 1 1 [2] = (1 : Matrix (Fin 1) (Fin 1) ℚ) * svdDiag 1 1 [2] *
        (1 : Matrix (Fin 1) (Fin 1) ℚ).transpose ∧
      (1 : Matrix (Fin 1) (Fin 1) ℚ) * 1 = 1 ∧
      [(2 : ℚ)].length = min 1 1 ∧
      0 < 1 ∧ 1 ≤ [(2 : ℚ)].length) ∧
    (∃ M, fullrank_post (matToList (1 : Matrix (Fin 1) (Fin 1) ℚ)) [2] 1 =
        .ok M ∧
      M.length = 1 ∧
      (∀ row ∈ M, row.length = 1) ∧
      (∀ j, j < 1 → ((argsort 0 [(2 : ℚ)]).reverse).getD j 0 < 1) ∧
      (∀ i j : ℕ, ∀ hi : i < 1, ∀ _hj : j < 1,
        ∀ hb : ((argsort 0 [(2 : ℚ)]).reverse).getD j 0 < 1,
        (M.getD i []).getD j 0 =
          (1 : Matrix (Fin 1) (Fin 1) ℚ) ⟨i, hi⟩
            ⟨((argsort 0 [(2 : ℚ)]).reverse).getD j 0, hb⟩) ∧
      ((∀ i ∈ List.range 1, 0 < [(2 : ℚ)].getD i 0) →
        (∀ i ∈ List.range 1, i + 1 < 1 →
          [(2 : ℚ)].getD (i + 1) 0 < [(2 : ℚ)].getD i 0) →
        (∀ i ∈ List.range [(2 : ℚ)].length, 1 ≤ i →
          [(2 : ℚ)].getD i 0 = 0) →
        colSpace (listToMat M 1 1) = colSpace (svdDiag 1 1 [2]))) := by
  have hfact : svdDiag 1 1 [2] =
      (1 : Matrix (Fin 1) (Fin 1) ℚ) * svdDiag 1 1 [2] *
        (1 : Matrix (Fin 1) (Fin 1) ℚ).transpose := by
    rw [Matrix.transpose_one, Matrix.mul_one, Matrix.one_mul]
  have hU : (1 : Matrix (Fin 1) (Fin 1) ℚ) * 1 = 1 := one_mul 1
  exact ⟨⟨hfact, hU, by decide, by decide, by decide⟩,
    fullrank_amended (svdDiag 1 1 [2]) 1 [2] 1 1 1 hfact hU
      (by decide) (by decide) (by decide)⟩
